import Mathlib

/-!
Verification of the oci-unpack library against its specification.

The Rust sources are shallowly embedded: strings are lists of characters,
machine integers are natural numbers with explicit bounds, fallible
operations return Except or Option, and the filesystem touched by the
layer extractor is a finite association list from paths to nodes.
-/

set_option autoImplicit false

namespace OciUnpack

/-- Strings from the Rust source, modelled as lists of characters.
All inputs relevant to the claims are ASCII, so byte length and
character length coincide. -/
abbrev Str := List Char

instance {ε α : Type} [DecidableEq ε] [DecidableEq α] :
    DecidableEq (Except ε α) := fun x y =>
  match x, y with
  | .ok a, .ok b =>
    if h : a = b then isTrue (by rw [h])
    else isFalse (by intro hc; cases hc; exact h rfl)
  | .error a, .error b =>
    if h : a = b then isTrue (by rw [h])
    else isFalse (by intro hc; cases hc; exact h rfl)
  | .ok _, .error _ => isFalse (by intro hc; cases hc)
  | .error _, .ok _ => isFalse (by intro hc; cases hc)

/-- Model of str::strip_prefix: removes the leading occurrence of pre,
returning the remainder, or none when s does not start with pre. -/
def stripLead : Str → Str → Option Str
  | [], s => some s
  | _ :: _, [] => none
  | p :: ps, c :: cs => if p = c then stripLead ps cs else none

/-- Model of str::ends_with for a suffix pattern. -/
def endsWith (s suffix : Str) : Bool :=
  suffix.isSuffixOf s

/-- Model of char::is_ascii_digit. -/
def isAsciiDigit (c : Char) : Bool :=
  48 ≤ c.toNat && c.toNat ≤ 57

/-- Model of char::is_ascii_hexdigit: a decimal digit or a letter
a-f of either case. -/
def isAsciiHexDigit (c : Char) : Bool :=
  isAsciiDigit c || (97 ≤ c.toNat && c.toNat ≤ 102) || (65 ≤ c.toNat && c.toNat ≤ 70)

/-- Lowercase-only hexadecimal digit, used to state the spec text
"lowercase-hex value". -/
def isLowerHexDigit (c : Char) : Bool :=
  isAsciiDigit c || (97 ≤ c.toNat && c.toNat ≤ 102)

/-- Algorithm of a digest (src/digest.rs, DigestAlgorithm). -/
inductive DigestAlgorithm
  | sha256
  | sha512
deriving DecidableEq

/-- Errors from the digest parser (src/digest.rs, DigestError). -/
inductive DigestError
  | invalidAlgorithm
  | invalidValue
deriving DecidableEq

/-- A digest value (src/digest.rs, Digest): the original source string
together with the recognized algorithm. -/
structure Digest where
  hash : Str
  algorithm : DigestAlgorithm
deriving DecidableEq

/-- The literal "sha256:" as a character list. -/
def sha256Head : Str := ['s', 'h', 'a', '2', '5', '6', ':']

/-- The literal "sha512:" as a character list. -/
def sha512Head : Str := ['s', 'h', 'a', '5', '1', '2', ':']

/-- Embeds impl TryFrom of String for Digest (src/digest.rs): strip the
algorithm marker, then require the value part to have the expected length
and only ASCII hexadecimal digits (of either case, as
char::is_ascii_hexdigit accepts both). -/
def digestTryFrom (hash : Str) : Except DigestError Digest :=
  match stripLead sha256Head hash with
  | some value =>
    if value.length == 256 / 8 * 2 && value.all isAsciiHexDigit then
      .ok { hash := hash, algorithm := .sha256 }
    else
      .error .invalidValue
  | none =>
    match stripLead sha512Head hash with
    | some value =>
      if value.length == 512 / 8 * 2 && value.all isAsciiHexDigit then
        .ok { hash := hash, algorithm := .sha512 }
      else
        .error .invalidValue
    | none => .error .invalidAlgorithm

/-- Whether a digest parse succeeded. -/
def digestOk (r : Except DigestError Digest) : Bool :=
  match r with
  | .ok _ => true
  | .error _ => false

/-- The acceptance condition exactly as claim C4 words it: the value part
must consist of lowercase hexadecimal characters of the expected length. -/
def claimC4Accepts (s : Str) : Bool :=
  (match stripLead sha256Head s with
   | some h => h.length == 64 && h.all isLowerHexDigit
   | none => false) ||
  (match stripLead sha512Head s with
   | some h => h.length == 128 && h.all isLowerHexDigit
   | none => false)

theorem stripLead_eq_some_iff (pre s h : Str) :
    stripLead pre s = some h ↔ s = pre ++ h := by
  induction pre generalizing s with
  | nil => simp [stripLead]
  | cons p ps ih =>
    cases s with
    | nil => simp [stripLead]
    | cons c cs =>
      by_cases hpc : p = c
      · subst hpc
        simp [stripLead, ih]
      · simp only [stripLead, if_neg hpc]
        constructor
        · intro hfalse
          exact absurd hfalse (by simp)
        · intro heq
          exact absurd (List.cons.injEq .. ▸ heq).1.symm hpc

theorem heads_conflict (s h h' : Str)
    (h1 : s = sha256Head ++ h) (h2 : s = sha512Head ++ h') : False := by
  rw [h1] at h2
  simp [sha256Head, sha512Head] at h2

/-- C4: parsing a digest string succeeds exactly when the value part after
the algorithm marker has the expected length and consists of ASCII
hexadecimal digits of either case (amended from "lowercase"); an
unrecognized algorithm marker yields invalidAlgorithm, a wrong length
or a non-hex character yields invalidValue. -/
theorem digestTryFrom_sha256 (s v : Str) (hv : s = sha256Head ++ v) :
    digestTryFrom s =
      if v.length = 64 ∧ (∀ c ∈ v, isAsciiHexDigit c = true) then
        .ok ⟨s, .sha256⟩
      else
        .error .invalidValue := by
  have h256 : stripLead sha256Head s = some v := (stripLead_eq_some_iff _ _ _).mpr hv
  by_cases hcond : v.length = 64 ∧ ∀ c ∈ v, isAsciiHexDigit c = true
  · have hb : (v.length == 256 / 8 * 2 && v.all isAsciiHexDigit) = true := by
      rw [Bool.and_eq_true, beq_iff_eq, List.all_eq_true]
      exact ⟨hcond.1, hcond.2⟩
    simp only [digestTryFrom, h256, hb, if_pos hcond]
    rfl
  · have hb : ¬(v.length == 256 / 8 * 2 && v.all isAsciiHexDigit) = true := by
      rw [Bool.and_eq_true, beq_iff_eq, List.all_eq_true]
      exact fun hc => hcond ⟨hc.1, hc.2⟩
    simp only [digestTryFrom, h256, if_neg hb, if_neg hcond]

theorem digestTryFrom_sha512 (s v : Str) (hv : s = sha512Head ++ v) :
    digestTryFrom s =
      if v.length = 128 ∧ (∀ c ∈ v, isAsciiHexDigit c = true) then
        .ok ⟨s, .sha512⟩
      else
        .error .invalidValue := by
  have h512 : stripLead sha512Head s = some v := (stripLead_eq_some_iff _ _ _).mpr hv
  have h256 : stripLead sha256Head s = none := by
    cases h : stripLead sha256Head s with
    | none => rfl
    | some w =>
      exact absurd hv (fun hv2 =>
        heads_conflict s w v ((stripLead_eq_some_iff _ _ _).mp h) hv2)
  by_cases hcond : v.length = 128 ∧ ∀ c ∈ v, isAsciiHexDigit c = true
  · have hb : (v.length == 512 / 8 * 2 && v.all isAsciiHexDigit) = true := by
      rw [Bool.and_eq_true, beq_iff_eq, List.all_eq_true]
      exact ⟨hcond.1, hcond.2⟩
    simp only [digestTryFrom, h256, h512, hb, if_pos hcond]
    rfl
  · have hb : ¬(v.length == 512 / 8 * 2 && v.all isAsciiHexDigit) = true := by
      rw [Bool.and_eq_true, beq_iff_eq, List.all_eq_true]
      exact fun hc => hcond ⟨hc.1, hc.2⟩
    simp only [digestTryFrom, h256, h512, if_neg hb, if_neg hcond]

theorem digestTryFrom_other (s : Str) (h256 : ∀ h, s ≠ sha256Head ++ h)
    (h512 : ∀ h, s ≠ sha512Head ++ h) :
    digestTryFrom s = .error .invalidAlgorithm := by
  have e256 : stripLead sha256Head s = none := by
    cases h : stripLead sha256Head s with
    | none => rfl
    | some w => exact absurd ((stripLead_eq_some_iff _ _ _).mp h) (h256 w)
  have e512 : stripLead sha512Head s = none := by
    cases h : stripLead sha512Head s with
    | none => rfl
    | some w => exact absurd ((stripLead_eq_some_iff _ _ _).mp h) (h512 w)
  simp only [digestTryFrom, e256, e512]

theorem C4_digest_parse (s : Str) :
    (digestOk (digestTryFrom s) = true ↔
      (∃ h, s = sha256Head ++ h ∧ h.length = 64 ∧ ∀ c ∈ h, isAsciiHexDigit c = true) ∨
      (∃ h, s = sha512Head ++ h ∧ h.length = 128 ∧ ∀ c ∈ h, isAsciiHexDigit c = true))
    ∧ ((∀ h, s ≠ sha256Head ++ h) → (∀ h, s ≠ sha512Head ++ h) →
        digestTryFrom s = .error .invalidAlgorithm)
    ∧ (∀ h, s = sha256Head ++ h → ¬(h.length = 64 ∧ ∀ c ∈ h, isAsciiHexDigit c = true) →
        digestTryFrom s = .error .invalidValue)
    ∧ (∀ h, s = sha512Head ++ h → ¬(h.length = 128 ∧ ∀ c ∈ h, isAsciiHexDigit c = true) →
        digestTryFrom s = .error .invalidValue)
    ∧ (∀ h, s = sha256Head ++ h → h.length = 64 → (∀ c ∈ h, isAsciiHexDigit c = true) →
        digestTryFrom s = .ok ⟨s, .sha256⟩)
    ∧ (∀ h, s = sha512Head ++ h → h.length = 128 → (∀ c ∈ h, isAsciiHexDigit c = true) →
        digestTryFrom s = .ok ⟨s, .sha512⟩) := by
  refine ⟨?_, digestTryFrom_other s, ?_, ?_, ?_, ?_⟩
  · constructor
    · intro hok
      by_cases h256 : ∃ h, s = sha256Head ++ h
      · obtain ⟨v, hv⟩ := h256
        rw [digestTryFrom_sha256 s v hv] at hok
        by_cases hcond : v.length = 64 ∧ ∀ c ∈ v, isAsciiHexDigit c = true
        · exact Or.inl ⟨v, hv, hcond.1, hcond.2⟩
        · rw [if_neg hcond] at hok
          exact absurd hok (by simp [digestOk])
      · by_cases h512 : ∃ h, s = sha512Head ++ h
        · obtain ⟨v, hv⟩ := h512
          rw [digestTryFrom_sha512 s v hv] at hok
          by_cases hcond : v.length = 128 ∧ ∀ c ∈ v, isAsciiHexDigit c = true
          · exact Or.inr ⟨v, hv, hcond.1, hcond.2⟩
          · rw [if_neg hcond] at hok
            exact absurd hok (by simp [digestOk])
        · rw [digestTryFrom_other s (fun h hh => h256 ⟨h, hh⟩)
            (fun h hh => h512 ⟨h, hh⟩)] at hok
          exact absurd hok (by simp [digestOk])
    · rintro (⟨v, hv, hlen, hhex⟩ | ⟨v, hv, hlen, hhex⟩)
      · rw [digestTryFrom_sha256 s v hv, if_pos ⟨hlen, hhex⟩]
        rfl
      · rw [digestTryFrom_sha512 s v hv, if_pos ⟨hlen, hhex⟩]
        rfl
  · intro h hh hbad
    rw [digestTryFrom_sha256 s h hh, if_neg hbad]
  · intro h hh hbad
    rw [digestTryFrom_sha512 s h hh, if_neg hbad]
  · intro h hh hlen hhex
    rw [digestTryFrom_sha256 s h hh, if_pos ⟨hlen, hhex⟩]
  · intro h hh hlen hhex
    rw [digestTryFrom_sha512 s h hh, if_pos ⟨hlen, hhex⟩]

/-- C4 witness: a digest with 64 lowercase hexadecimal digits is accepted. -/
theorem C4_digest_parse_witness :
    digestOk (digestTryFrom (sha256Head ++ List.replicate 64 'a')) = true :=
  (C4_digest_parse _).1.mpr
    (Or.inl ⟨List.replicate 64 'a', rfl, by decide, by decide⟩)

/-- C4 counterexample: a digest whose value part is 64 uppercase
hexadecimal digits is accepted by the code, while the claim as stated
(lowercase only) rejects it. -/
theorem C4_counterexample :
    digestOk (digestTryFrom (sha256Head ++ List.replicate 64 'A')) = true ∧
    claimC4Accepts (sha256Head ++ List.replicate 64 'A') = false := by
  decide

/-! ## Deferred directory-metadata keys (claim C6) -/

/-- usize::MAX on the 64-bit targets the crate supports. -/
def USIZE_MAX : Nat := 2 ^ 64 - 1

/-- Embeds DirectoryMetadataEntry::key (src/unpacker/mod.rs): the map key
for a directory path is the pair (usize::MAX - byte length of the path,
path). Paths here are byte strings. -/
def metadataKey (path : Str) : Nat × Str := (USIZE_MAX - path.length, path)

/-- The strict order of BTreeMap keys of type (usize, PathBuf):
lexicographic on the pair, with paths compared bytewise. -/
def keyLt (a b : Nat × Str) : Prop :=
  a.1 < b.1 ∨ (a.1 = b.1 ∧ List.Lex (· < ·) a.2 b.2)

/-- C6: the metadata key function is strictly order-reversing in path
length, so any list of keys in ascending key order has nonincreasing path
lengths and never places a directory before a strictly deeper descendant. -/
theorem C6_metadata_key_order :
    (∀ p q : Str, p.length ≤ USIZE_MAX → q.length < p.length →
      keyLt (metadataKey p) (metadataKey q))
    ∧ (∀ l : List (Nat × Str),
        (∀ k ∈ l, k.1 = USIZE_MAX - k.2.length ∧ k.2.length ≤ USIZE_MAX) →
        l.Pairwise keyLt →
        l.Pairwise (fun a b => b.2.length ≤ a.2.length)
        ∧ l.Pairwise (fun a b => ¬∃ r, b.2 = a.2 ++ r ∧ r ≠ [])) := by
  have key1 : ∀ p q : Str, p.length ≤ USIZE_MAX → q.length < p.length →
      keyLt (metadataKey p) (metadataKey q) := by
    intro p q hp hq
    left
    simp only [metadataKey]
    omega
  refine ⟨key1, ?_⟩
  intro l hwf hsorted
  have hlen : l.Pairwise fun a b => b.2.length ≤ a.2.length := by
    have h' := List.Pairwise.and_mem.mp hsorted
    refine h'.imp ?_
    rintro a b ⟨ha, hb, hab⟩
    obtain ⟨hka, hla⟩ := hwf a ha
    obtain ⟨hkb, hlb⟩ := hwf b hb
    rcases hab with hlt | ⟨heq, _⟩
    · rw [hka, hkb] at hlt
      omega
    · rw [hka, hkb] at heq
      omega
  refine ⟨hlen, hlen.imp ?_⟩
  rintro a b hle ⟨r, hr, hrne⟩
  rw [hr] at hle
  simp only [List.length_append] at hle
  have : r.length = 0 := by omega
  exact hrne (List.eq_nil_of_length_eq_zero this)

/-- C6 witness: a longer path receives a strictly smaller key. -/
theorem C6_metadata_key_order_witness :
    keyLt (metadataKey ['/', 'a', 'b']) (metadataKey ['/', 'a']) :=
  C6_metadata_key_order.1 ['/', 'a', 'b'] ['/', 'a']
    (by norm_num [USIZE_MAX]) (by norm_num)

/-! ## Path normalization (claim C1) -/

/-- Split a byte string at '/' separators; the segmentation underlying
std::path::Components on Unix. -/
def splitOnSlash : Str → List Str
  | [] => [[]]
  | c :: cs =>
    let r := splitOnSlash cs
    if c = '/' then
      [] :: r
    else
      match r with
      | [] => [[c]]
      | seg :: rest => (c :: seg) :: rest

/-- Components of a Unix path (std::path::Component). The Windows-only
Prefix variant never occurs on the targets of this crate and is omitted. -/
inductive PathComponent
  | rootDir
  | curDir
  | parentDir
  | normal (seg : Str)
deriving DecidableEq

/-- A non-leading path segment as a component: empty and "." segments
vanish, ".." is ParentDir, anything else is Normal. -/
def tailSegComponent (seg : Str) : Option PathComponent :=
  if seg = [] ∨ seg = ['.'] then none
  else if seg = ['.', '.'] then some .parentDir
  else some (.normal seg)

/-- The leading segment of a path determines the first component; the
remaining segments pass through tailSegComponent. -/
def componentsOfSegs : List Str → List PathComponent
  | [] => []
  | first :: rest =>
    let tail := rest.filterMap tailSegComponent
    if first = [] then
      if rest = [] then [] else .rootDir :: tail
    else if first = ['.'] then .curDir :: tail
    else if first = ['.', '.'] then .parentDir :: tail
    else .normal first :: tail

/-- Embeds std::path::Path::components for Unix paths: a leading '/'
yields RootDir, a leading "." yields CurDir, ".." yields ParentDir, and
empty or "." segments elsewhere are skipped. -/
def pathComponents (path : Str) : List PathComponent :=
  componentsOfSegs (splitOnSlash path)

/-- I/O error kinds used by the embedded code. -/
inductive IOErrorKind
  | invalidData
  | notFound
  | alreadyExists
deriving DecidableEq

/-- An I/O error: a kind together with a message. -/
structure IOError where
  kind : IOErrorKind
  msg : Str
deriving DecidableEq

/-- The message of the path-normalization error, quotes elided. -/
def dotDotMsg : Str := "Found .. in the path.".toList

/-- Embeds PathBuf::push for one normal component: a '/' separator is
inserted unless the base already ends with one. -/
def pushPath (base comp : Str) : Str :=
  if base.getLast? = some '/' then base ++ comp else base ++ '/' :: comp

/-- Embeds the component loop of normalize_path (src/fs.rs): root, prefix
and current-dir components are skipped, a parent-dir component is a fatal
InvalidData error, and each normal component pushes the previous file-name
candidate onto the parent path. -/
def normalizeLoop :
    List PathComponent → Str → Option Str → Except IOError (Str × Option Str)
  | [], parent, fileName => .ok (parent, fileName)
  | c :: rest, parent, fileName =>
    match c with
    | .rootDir => normalizeLoop rest parent fileName
    | .curDir => normalizeLoop rest parent fileName
    | .parentDir => .error ⟨.invalidData, dotDotMsg⟩
    | .normal seg =>
      match fileName with
      | some previous => normalizeLoop rest (pushPath parent previous) (some seg)
      | none => normalizeLoop rest parent (some seg)

/-- Embeds normalize_path (src/fs.rs): split an archive entry path into
(parent, file name); the parent starts at "/" and the file name defaults
to ".". -/
def normalize_path (path : Str) : Except IOError (Str × Str) :=
  (normalizeLoop (pathComponents path) ['/'] none).map
    fun pf => (pf.1, pf.2.getD ['.'])

/-- The segment of a normal component, if any. -/
def normalSeg? : PathComponent → Option Str
  | .normal seg => some seg
  | _ => none

/-- The normal components of a component list, in order. -/
def normalSegs (comps : List PathComponent) : List Str :=
  comps.filterMap normalSeg?

@[simp] theorem normalSegs_nil : normalSegs [] = [] := rfl

@[simp] theorem normalSegs_cons_normal (s : Str) (l : List PathComponent) :
    normalSegs (.normal s :: l) = s :: normalSegs l := rfl

@[simp] theorem normalSegs_cons_root (l : List PathComponent) :
    normalSegs (.rootDir :: l) = normalSegs l := rfl

@[simp] theorem normalSegs_cons_cur (l : List PathComponent) :
    normalSegs (.curDir :: l) = normalSegs l := rfl

@[simp] theorem normalSegs_cons_parent (l : List PathComponent) :
    normalSegs (.parentDir :: l) = normalSegs l := rfl

theorem normalSeg?_eq_some (c : PathComponent) (s : Str) :
    normalSeg? c = some s ↔ c = .normal s := by
  cases c <;> simp [normalSeg?]

/-- "/" followed by the given segments in order, '/'-separated; the claim
C1 description of the parent path. -/
def renderParent (segs : List Str) : Str :=
  if segs = [] then ['/'] else (segs.map (fun seg => '/' :: seg)).flatten

theorem splitOnSlash_no_slash (s : Str) : ∀ seg ∈ splitOnSlash s, '/' ∉ seg := by
  induction s with
  | nil =>
    intro seg hseg
    simp only [splitOnSlash, List.mem_singleton] at hseg
    subst hseg
    simp
  | cons c cs ih =>
    intro seg hseg
    by_cases hc : c = '/'
    · simp only [splitOnSlash, if_pos hc] at hseg
      rcases List.mem_cons.mp hseg with h | h
      · subst h; simp
      · exact ih seg h
    · simp only [splitOnSlash, if_neg hc] at hseg
      cases hr : splitOnSlash cs with
      | nil =>
        rw [hr] at hseg
        rcases List.mem_singleton.mp hseg with rfl
        intro hmem
        exact hc (List.mem_singleton.mp hmem).symm
      | cons s0 rest =>
        rw [hr] at hseg
        rcases List.mem_cons.mp hseg with h | h
        · subst h
          intro hmem
          rcases List.mem_cons.mp hmem with h | h
          · exact hc h.symm
          · exact ih s0 (hr ▸ List.mem_cons_self s0 rest) h
        · exact ih seg (hr ▸ List.mem_cons_of_mem s0 h)

theorem tailSegComponent_normal_inv (x seg : Str)
    (h : tailSegComponent x = some (.normal seg)) : x = seg ∧ x ≠ [] := by
  unfold tailSegComponent at h
  by_cases h1 : x = [] ∨ x = ['.']
  · rw [if_pos h1] at h; exact Option.noConfusion h
  · rw [if_neg h1] at h
    by_cases h2 : x = ['.', '.']
    · rw [if_pos h2] at h
      exact PathComponent.noConfusion (Option.some.inj h)
    · rw [if_neg h2] at h
      have hx := Option.some.inj h
      exact ⟨PathComponent.normal.inj hx, fun hnil => h1 (Or.inl hnil)⟩

theorem normalSegs_sound (path : Str) :
    ∀ seg ∈ normalSegs (pathComponents path), seg ≠ [] ∧ '/' ∉ seg := by
  intro seg hseg
  have hsplit := splitOnSlash_no_slash path
  have tail_case :
      ∀ rest : List Str, (∀ x ∈ rest, '/' ∉ x) →
        seg ∈ normalSegs (rest.filterMap tailSegComponent) → seg ≠ [] ∧ '/' ∉ seg := by
    intro rest hrest hmem
    simp only [normalSegs, List.mem_filterMap] at hmem
    obtain ⟨c, hc, hcseg⟩ := hmem
    obtain ⟨x, hx, hxc⟩ := hc
    rw [normalSeg?_eq_some] at hcseg
    subst hcseg
    obtain ⟨hxe, hxn⟩ := tailSegComponent_normal_inv x seg hxc
    subst hxe
    exact ⟨hxn, hrest x hx⟩
  rw [pathComponents] at hseg
  cases hs : splitOnSlash path with
  | nil => rw [hs] at hseg; simp [componentsOfSegs] at hseg
  | cons first rest =>
    rw [hs] at hseg
    simp only [componentsOfSegs] at hseg
    have hrest : ∀ x ∈ rest, '/' ∉ x := by
      intro x hx
      exact hsplit x (hs ▸ List.mem_cons_of_mem first hx)
    have hfirst : '/' ∉ first := hsplit first (hs ▸ List.mem_cons_self first rest)
    by_cases h1 : first = []
    · rw [if_pos h1] at hseg
      by_cases h2 : rest = []
      · rw [if_pos h2] at hseg; simp at hseg
      · rw [if_neg h2] at hseg
        rw [normalSegs_cons_root] at hseg
        exact tail_case rest hrest hseg
    · rw [if_neg h1] at hseg
      by_cases h2 : first = ['.']
      · rw [if_pos h2] at hseg
        rw [normalSegs_cons_cur] at hseg
        exact tail_case rest hrest hseg
      · rw [if_neg h2] at hseg
        by_cases h3 : first = ['.', '.']
        · rw [if_pos h3] at hseg
          rw [normalSegs_cons_parent] at hseg
          exact tail_case rest hrest hseg
        · rw [if_neg h3] at hseg
          rw [normalSegs_cons_normal] at hseg
          rcases List.mem_cons.mp hseg with h | h
          · exact ⟨h ▸ h1, h ▸ hfirst⟩
          · exact tail_case rest hrest h

@[simp] theorem normalizeLoop_nil (p : Str) (fn : Option Str) :
    normalizeLoop [] p fn = .ok (p, fn) := rfl

@[simp] theorem normalizeLoop_root (l : List PathComponent) (p : Str) (fn : Option Str) :
    normalizeLoop (.rootDir :: l) p fn = normalizeLoop l p fn := rfl

@[simp] theorem normalizeLoop_cur (l : List PathComponent) (p : Str) (fn : Option Str) :
    normalizeLoop (.curDir :: l) p fn = normalizeLoop l p fn := rfl

@[simp] theorem normalizeLoop_parent (l : List PathComponent) (p : Str) (fn : Option Str) :
    normalizeLoop (.parentDir :: l) p fn = .error ⟨.invalidData, dotDotMsg⟩ := rfl

@[simp] theorem normalizeLoop_normal_none (s : Str) (l : List PathComponent) (p : Str) :
    normalizeLoop (.normal s :: l) p none = normalizeLoop l p (some s) := rfl

@[simp] theorem normalizeLoop_normal_some (s prev : Str) (l : List PathComponent) (p : Str) :
    normalizeLoop (.normal s :: l) p (some prev) =
      normalizeLoop l (pushPath p prev) (some s) := rfl

theorem normalizeLoop_error (comps : List PathComponent) :
    ∀ (parent : Str) (fn : Option Str), PathComponent.parentDir ∈ comps →
      normalizeLoop comps parent fn = .error ⟨.invalidData, dotDotMsg⟩ := by
  induction comps with
  | nil => intro _ _ h; cases h
  | cons c rest ih =>
    intro parent fn hmem
    cases c with
    | rootDir =>
      have hr : PathComponent.parentDir ∈ rest := by
        rcases List.mem_cons.mp hmem with h | h
        · exact absurd h (by simp)
        · exact h
      rw [normalizeLoop_root]
      exact ih parent fn hr
    | curDir =>
      have hr : PathComponent.parentDir ∈ rest := by
        rcases List.mem_cons.mp hmem with h | h
        · exact absurd h (by simp)
        · exact h
      rw [normalizeLoop_cur]
      exact ih parent fn hr
    | parentDir => rw [normalizeLoop_parent]
    | normal s =>
      have hr : PathComponent.parentDir ∈ rest := by
        rcases List.mem_cons.mp hmem with h | h
        · exact absurd h (by simp)
        · exact h
      cases fn with
      | none => rw [normalizeLoop_normal_none]; exact ih parent (some s) hr
      | some prev => rw [normalizeLoop_normal_some]; exact ih _ (some s) hr

/-- Prepend an optional pending file name to a segment list. -/
def optCons (fn : Option Str) (segs : List Str) : List Str :=
  match fn with
  | some x => x :: segs
  | none => segs

theorem normalizeLoop_ok (comps : List PathComponent)
    (h : PathComponent.parentDir ∉ comps) :
    ∀ (parent : Str) (fn : Option Str),
      normalizeLoop comps parent fn =
        .ok (List.foldl pushPath parent (optCons fn (normalSegs comps)).dropLast,
             (optCons fn (normalSegs comps)).getLast?) := by
  induction comps with
  | nil =>
    intro parent fn
    cases fn <;> simp [optCons]
  | cons c rest ih =>
    have hrest : PathComponent.parentDir ∉ rest := fun hr =>
      h (List.mem_cons_of_mem c hr)
    intro parent fn
    cases c with
    | rootDir => rw [normalizeLoop_root, normalSegs_cons_root]; exact ih hrest parent fn
    | curDir => rw [normalizeLoop_cur, normalSegs_cons_cur]; exact ih hrest parent fn
    | parentDir => exact absurd (List.mem_cons_self _ _) h
    | normal s =>
      rw [normalSegs_cons_normal]
      cases fn with
      | none =>
        rw [normalizeLoop_normal_none, ih hrest parent (some s)]
        rfl
      | some prev =>
        rw [normalizeLoop_normal_some, ih hrest (pushPath parent prev) (some s)]
        have hdrop : (optCons (some prev) (s :: normalSegs rest)).dropLast =
            prev :: (optCons (some s) (normalSegs rest)).dropLast := by
          simp [optCons]
        have hlast : (optCons (some prev) (s :: normalSegs rest)).getLast? =
            (optCons (some s) (normalSegs rest)).getLast? := by
          simp [optCons]
        rw [hdrop, hlast, List.foldl_cons]

theorem getLast?_append_cons (b : Str) (c : Char) (x : Str) :
    (b ++ c :: x).getLast? = (c :: x).getLast? := by
  induction b with
  | nil => rfl
  | cons y ys ih =>
    rw [List.cons_append, ← ih]
    cases hys : ys ++ c :: x with
    | nil => exact absurd hys (by simp)
    | cons z zs => rw [List.getLast?_cons_cons]

theorem mem_of_getLast?_eq {l : Str} {a : Char} (h : l.getLast? = some a) :
    a ∈ l := by
  induction l with
  | nil => cases h
  | cons x xs ih =>
    cases xs with
    | nil =>
      have hx : x = a := by simpa using h
      simp [hx]
    | cons y ys =>
      rw [List.getLast?_cons_cons] at h
      exact List.mem_cons_of_mem x (ih h)

theorem foldl_pushPath_append (l : List Str) :
    ∀ b : Str, b ≠ [] → b.getLast? ≠ some '/' →
      (∀ x ∈ l, x ≠ [] ∧ '/' ∉ x) →
      List.foldl pushPath b l = b ++ (l.map (fun seg => '/' :: seg)).flatten := by
  induction l with
  | nil => intro b _ _ _; simp
  | cons x xs ih =>
    intro b hb hbl hl
    obtain ⟨hxne, hxsl⟩ := hl x (List.mem_cons_self x xs)
    have h1 : pushPath b x = b ++ '/' :: x := by rw [pushPath, if_neg hbl]
    have h2 : (b ++ '/' :: x).getLast? = x.getLast? := by
      rw [getLast?_append_cons]
      cases x with
      | nil => exact absurd rfl hxne
      | cons y ys => rw [List.getLast?_cons_cons]
    have h3 : x.getLast? ≠ some '/' := by
      intro hcon
      exact hxsl (mem_of_getLast?_eq hcon)
    rw [List.foldl_cons, h1,
      ih (b ++ '/' :: x) (by simp) (h2 ▸ h3)
        (fun y hy => hl y (List.mem_cons_of_mem x hy))]
    simp

theorem foldl_pushPath_render (l : List Str)
    (hl : ∀ x ∈ l, x ≠ [] ∧ '/' ∉ x) :
    List.foldl pushPath ['/'] l = renderParent l := by
  cases l with
  | nil => simp [renderParent]
  | cons x xs =>
    obtain ⟨hxne, hxsl⟩ := hl x (List.mem_cons_self x xs)
    have h1 : pushPath ['/'] x = '/' :: x := by
      rw [pushPath, if_pos (show (['/'] : Str).getLast? = some '/' from rfl)]
      rfl
    have h2 : ('/' :: x).getLast? ≠ some '/' := by
      cases x with
      | nil => exact absurd rfl hxne
      | cons y ys =>
        rw [List.getLast?_cons_cons]
        intro hcon
        exact hxsl (mem_of_getLast?_eq hcon)
    rw [List.foldl_cons, h1,
      foldl_pushPath_append xs ('/' :: x) (by simp) h2
        (fun y hy => hl y (List.mem_cons_of_mem x hy))]
    simp [renderParent]

/-- C1: path normalization fails (with InvalidData) exactly when the path
contains a parent-dir component; otherwise it returns the last normal
component (or ".") as file name, and "/" followed by the earlier normal
components as parent. -/
theorem C1_normalize_path (path : Str) :
    ((∃ e, normalize_path path = .error e) ↔
      PathComponent.parentDir ∈ pathComponents path)
    ∧ (∀ e, normalize_path path = .error e → e.kind = .invalidData)
    ∧ (PathComponent.parentDir ∉ pathComponents path →
        normalize_path path =
          .ok (renderParent (normalSegs (pathComponents path)).dropLast,
               ((normalSegs (pathComponents path)).getLast?).getD ['.'])) := by
  by_cases hmem : PathComponent.parentDir ∈ pathComponents path
  · have herr := normalizeLoop_error (pathComponents path) ['/'] none hmem
    refine ⟨⟨fun _ => hmem, fun _ => ?_⟩, fun e he => ?_, fun hno => absurd hmem hno⟩
    · exact ⟨⟨.invalidData, dotDotMsg⟩, by simp [normalize_path, herr, Except.map]⟩
    · rw [normalize_path, herr] at he
      cases he
      rfl
  · have hok := normalizeLoop_ok (pathComponents path) hmem ['/'] none
    have hsegs := normalSegs_sound path
    have hrender :
        List.foldl pushPath ['/'] (normalSegs (pathComponents path)).dropLast =
          renderParent (normalSegs (pathComponents path)).dropLast :=
      foldl_pushPath_render _ fun x hx => hsegs x (List.dropLast_subset _ hx)
    have hres : normalize_path path =
        .ok (renderParent (normalSegs (pathComponents path)).dropLast,
             ((normalSegs (pathComponents path)).getLast?).getD ['.']) := by
      rw [normalize_path, hok]
      simp only [Except.map, optCons]
      rw [hrender]
    refine ⟨⟨?_, fun h => absurd h hmem⟩, ?_, fun _ => hres⟩
    · rintro ⟨e, he⟩
      rw [hres] at he
      cases he
    · intro e he
      rw [hres] at he
      cases he

/-- C1 witness: a three-component path normalizes to its last component
with the earlier components as the parent. -/
theorem C1_normalize_path_witness :
    normalize_path ['a', '/', 'b', '/', 'c'] =
      .ok (renderParent
            (normalSegs (pathComponents ['a', '/', 'b', '/', 'c'])).dropLast,
          ((normalSegs (pathComponents ['a', '/', 'b', '/', 'c'])).getLast?).getD
            ['.']) :=
  (C1_normalize_path ['a', '/', 'b', '/', 'c']).2.2 (by decide)

/-! ## Registry URL scheme (claim C9) -/

/-- Model of char::to_digit: the value of a character as a digit in the
given radix, for radixes up to 16. -/
def digitVal (radix : Nat) (c : Char) : Option Nat :=
  let raw :=
    if 48 ≤ c.toNat && c.toNat ≤ 57 then some (c.toNat - 48)
    else if 97 ≤ c.toNat && c.toNat ≤ 122 then some (c.toNat - 87)
    else if 65 ≤ c.toNat && c.toNat ≤ 90 then some (c.toNat - 55)
    else none
  match raw with
  | some d => if d < radix then some d else none
  | none => none

/-- Model of the core::net Parser::read_number: consume all leading digits
in the radix; fail on zero digits, on more than maxDigits digits, on a
disallowed leading zero, or when the value exceeds maxVal (the checked
arithmetic of the target integer type). -/
def readNumber (radix : Nat) (maxDigits : Option Nat) (allowZeroStart : Bool)
    (maxVal : Nat) (s : Str) : Option (Nat × Str) :=
  let ds := s.takeWhile fun c => (digitVal radix c).isSome
  let rest := s.drop ds.length
  if ds.length = 0 then none
  else if (match maxDigits with | some m => decide (m < ds.length) | none => false) then
    none
  else if !allowZeroStart && ds.head? == some '0' && decide (1 < ds.length) then none
  else
    let v := ds.foldl (fun a c => a * radix + (digitVal radix c).getD 0) 0
    if v ≤ maxVal then some (v, rest) else none

/-- Model of Parser::read_given_char. -/
def readGivenChar (c : Char) (s : Str) : Option (Unit × Str) :=
  match s with
  | x :: rest => if x = c then some ((), rest) else none
  | [] => none

/-- Model of Parser::read_separator: every group after the first must be
preceded by the separator character. -/
def readSeparator {α : Type} (sep : Char) (i : Nat)
    (inner : Str → Option (α × Str)) (s : Str) : Option (α × Str) :=
  if i = 0 then inner s
  else
    match readGivenChar sep s with
    | some (_, rest) => inner rest
    | none => none

/-- Model of Parser::read_ipv4_addr: four octets of at most 3 digits each,
no leading zero, value at most 255, separated by dots. -/
def readIpv4Addr (s : Str) : Option (List Nat × Str) := do
  let (a, s1) ← readNumber 10 (some 3) false 255 s
  let (b, s2) ← readSeparator '.' 1 (readNumber 10 (some 3) false 255) s1
  let (c, s3) ← readSeparator '.' 2 (readNumber 10 (some 3) false 255) s2
  let (d, s4) ← readSeparator '.' 3 (readNumber 10 (some 3) false 255) s3
  some ([a, b, c, d], s4)

/-- Model of the read_groups helper inside Parser::read_ipv6_addr: read up
to the given number of 16-bit groups of at most 4 hex digits, separated by
colons; when at least two slots remain, a trailing embedded IPv4 address
may fill two groups and end the sequence. Returns the groups read, whether
an embedded IPv4 address was used, and the unread rest. -/
def readGroupsAux (i : Nat) : Nat → Str → List Nat × Bool × Str
  | 0, s => ([], false, s)
  | slots + 1, s =>
    match (if slots + 1 ≥ 2 then readSeparator ':' i readIpv4Addr s else none) with
    | some (oct, rest) =>
      match oct with
      | [o1, o2, o3, o4] => ([o1 * 256 + o2, o3 * 256 + o4], true, rest)
      | _ => ([], false, s)
    | none =>
      match readSeparator ':' i (readNumber 16 (some 4) true 65535) s with
      | some (g, rest) =>
        match readGroupsAux (i + 1) slots rest with
        | (gs, four, rest') => (g :: gs, four, rest')
      | none => ([], false, s)

/-- Model of Parser::read_ipv6_addr: head groups, optionally a double
colon standing for one or more zero groups, then tail groups; an embedded
IPv4 address in the head is only allowed when it completes all eight
groups. -/
def readIpv6Addr (s : Str) : Option (List Nat × Str) :=
  match readGroupsAux 0 8 s with
  | (head, headIpv4, s1) =>
    if head.length = 8 then some (head, s1)
    else if headIpv4 then none
    else
      match readGivenChar ':' s1 with
      | none => none
      | some (_, s2) =>
        match readGivenChar ':' s2 with
        | none => none
        | some (_, s3) =>
          match readGroupsAux 0 (8 - (head.length + 1)) s3 with
          | (tail, _, s4) =>
            some (head ++ List.replicate (8 - head.length - tail.length) 0 ++ tail,
                  s4)

/-- Model of Parser::read_scope_id: a percent sign followed by a decimal
u32. -/
def readScopeId (s : Str) : Option (Nat × Str) :=
  match readGivenChar '%' s with
  | some (_, rest) => readNumber 10 none true 4294967295 rest
  | none => none

/-- Model of Parser::read_port: a colon followed by a decimal u16. -/
def readPort (s : Str) : Option (Nat × Str) :=
  match readGivenChar ':' s with
  | some (_, rest) => readNumber 10 none true 65535 rest
  | none => none

/-- A parsed socket address. -/
inductive SockAddr
  | v4 (octets : List Nat) (port : Nat)
  | v6 (groups : List Nat) (scopeId : Nat) (port : Nat)
deriving DecidableEq

/-- Model of Parser::read_socket_addr_v4. -/
def readSocketAddrV4 (s : Str) : Option (SockAddr × Str) := do
  let (ip, s1) ← readIpv4Addr s
  let (port, s2) ← readPort s1
  some (.v4 ip port, s2)

/-- Model of Parser::read_socket_addr_v6: a bracketed IPv6 address with an
optional scope id, followed by a port. -/
def readSocketAddrV6 (s : Str) : Option (SockAddr × Str) := do
  let (_, s1) ← readGivenChar '[' s
  let (ip, s2) ← readIpv6Addr s1
  let sc :=
    match readScopeId s2 with
    | some (n, rest) => (n, rest)
    | none => (0, s2)
  let (_, s4) ← readGivenChar ']' sc.2
  let (port, s5) ← readPort s4
  some (.v6 ip sc.1 port, s5)

/-- Model of Parser::read_socket_addr: IPv4 form first, IPv6 otherwise. -/
def readSocketAddr (s : Str) : Option (SockAddr × Str) :=
  match readSocketAddrV4 s with
  | some r => some r
  | none => readSocketAddrV6 s

/-- Model of SocketAddr::from_str: the whole string must be consumed. -/
def parseSocketAddr (s : Str) : Option SockAddr :=
  match readSocketAddr s with
  | some (a, []) => some a
  | _ => none

/-- Loopback test of the parsed IP (Ipv4Addr::is_loopback checks the
first octet against 127; Ipv6Addr::is_loopback checks for ::1). -/
def isLoopbackSockAddr (a : SockAddr) : Bool :=
  match a with
  | .v4 octets _ => octets.head? == some 127
  | .v6 groups _ _ => groups == [0, 0, 0, 0, 0, 0, 0, 1]

/-- The literal "http://". -/
def httpScheme : Str := ['h', 't', 't', 'p', ':', '/', '/']

/-- The literal "https://". -/
def httpsScheme : Str := ['h', 't', 't', 'p', 's', ':', '/', '/']

/-- Embeds guess_scheme (src/http/mod.rs): http when the registry literal
ends in ":80" or parses as a socket address whose IP is loopback; https in
every other case. -/
def guess_scheme (registry : Str) : Str :=
  if endsWith registry [':', '8', '0'] then httpScheme
  else
    match parseSocketAddr registry with
    | some a => if isLoopbackSockAddr a then httpScheme else httpsScheme
    | none => httpsScheme

/-- A parsed IP address without a port. -/
inductive IpAddr
  | v4 (octets : List Nat)
  | v6 (groups : List Nat)
deriving DecidableEq

/-- Model of Parser::read_ip_addr (IpAddr::from_str before the
end-of-input check): IPv4 form first, IPv6 otherwise. -/
def readIpAddr (s : Str) : Option (IpAddr × Str) :=
  match readIpv4Addr s with
  | some (ip, rest) => some (.v4 ip, rest)
  | none =>
    match readIpv6Addr s with
    | some (gs, rest) => some (.v6 gs, rest)
    | none => none

/-- Model of IpAddr::from_str: the whole string must be consumed. -/
def parseIpAddr (s : Str) : Option IpAddr :=
  match readIpAddr s with
  | some (a, []) => some a
  | _ => none

def isLoopbackIp (ip : IpAddr) : Bool :=
  match ip with
  | .v4 octets => octets.head? == some 127
  | .v6 groups => groups == [0, 0, 0, 0, 0, 0, 0, 1]

/-- Modelled from the spec: "is a loopback IP literal" — the host string
parses as an IP address (IPv4 or IPv6, no port) that is loopback. This is
the claim-side notion compared against guess_scheme. -/
def isLoopbackIpLiteral (s : Str) : Bool :=
  match parseIpAddr s with
  | some ip => isLoopbackIp ip
  | none => false

/-- C9 counterexample: the bare loopback IP literal 127.0.0.1 (no port)
is a loopback IP literal and does not end in ":80", yet the code chooses
https, because SocketAddr parsing requires a port. -/
theorem C9_counterexample :
    guess_scheme ['1', '2', '7', '.', '0', '.', '0', '.', '1'] = httpsScheme
    ∧ isLoopbackIpLiteral ['1', '2', '7', '.', '0', '.', '0', '.', '1'] = true
    ∧ endsWith ['1', '2', '7', '.', '0', '.', '0', '.', '1'] [':', '8', '0']
        = false := by
  decide

/-- C9 (amended): the scheme is http exactly when the host ends in ":80"
or parses as a socket address (an IP literal together with a port) whose
IP is loopback; every other host gets https. -/
theorem C9_guess_scheme (registry : Str) :
    (guess_scheme registry = httpScheme ↔
      endsWith registry [':', '8', '0'] = true ∨
      ∃ a, parseSocketAddr registry = some a ∧ isLoopbackSockAddr a = true)
    ∧ (guess_scheme registry = httpScheme ∨ guess_scheme registry = httpsScheme) := by
  have hne : httpsScheme ≠ httpScheme := by decide
  by_cases h80 : endsWith registry [':', '8', '0'] = true
  · have hg : guess_scheme registry = httpScheme := by
      simp only [guess_scheme, if_pos h80]
    rw [hg]
    exact ⟨⟨fun _ => Or.inl h80, fun _ => rfl⟩, Or.inl rfl⟩
  · cases hp : parseSocketAddr registry with
    | none =>
      have hg : guess_scheme registry = httpsScheme := by
        simp only [guess_scheme, if_neg h80, hp]
      rw [hg]
      refine ⟨⟨fun h => absurd h hne, ?_⟩, Or.inr rfl⟩
      rintro (h | ⟨a, ha, _⟩)
      · exact absurd h h80
      · cases ha
    | some a =>
      by_cases hl : isLoopbackSockAddr a = true
      · have hg : guess_scheme registry = httpScheme := by
          simp only [guess_scheme, if_neg h80, hp]
          simp [hl]
        rw [hg]
        exact ⟨⟨fun _ => Or.inr ⟨a, rfl, hl⟩, fun _ => rfl⟩, Or.inl rfl⟩
      · have hg : guess_scheme registry = httpsScheme := by
          simp only [guess_scheme, if_neg h80, hp]
          simp [hl]
        rw [hg]
        refine ⟨⟨fun h => absurd h hne, ?_⟩, Or.inr rfl⟩
        rintro (h | ⟨b, hb, hbl⟩)
        · exact absurd h h80
        · cases hb
          exact absurd hbl hl

/-- C9 witness: a loopback socket address with a port other than 80 gets
the http scheme. -/
theorem C9_guess_scheme_witness :
    guess_scheme ['1', '2', '7', '.', '0', '.', '0', '.', '1', ':', '8', '1']
      = httpScheme :=
  (C9_guess_scheme _).1.mpr
    (Or.inr ⟨SockAddr.v4 [127, 0, 0, 1] 81, by decide, by decide⟩)

/-! ## Streaming digest verification (claim C3) -/

/-- Lowercase hex digit character of a value below 16. -/
def hexChar (n : Nat) : Char :=
  if n < 10 then Char.ofNat (48 + n) else Char.ofNat (87 + n)

/-- Model of the HexString Display impl (src/digest.rs): each byte as two
lowercase hex digits. -/
def hexEncode (bytes : List Nat) : Str :=
  (bytes.map fun b => [hexChar (b / 16 % 16), hexChar (b % 16)]).flatten

/-- Model of u8::from_str_radix in radix 16 applied to two hex digit
characters of either case. -/
def hexPairVal (c1 c2 : Char) : Option Nat := do
  let h ← digitVal 16 c1
  let l ← digitVal 16 c2
  some (h * 16 + l)

/-- Embeds the comparison loop of DigestReader::check_hash
(src/digest.rs): walk the computed hash bytes, consuming two characters
of the expected string per byte; a split failure, a parse failure, or a
byte mismatch fails the whole comparison. -/
def hexMatch : List Nat → Str → Bool
  | [], _ => true
  | b :: bs, c1 :: c2 :: rest =>
    match hexPairVal c1 c2 with
    | some v => if v = b then hexMatch bs rest else false
    | none => false
  | _ :: _, _ => false

/-- Decode a hex string (either case) into bytes, two characters per
byte. -/
def hexDecode : Str → Option (List Nat)
  | [] => some []
  | c1 :: c2 :: rest => do
    let v ← hexPairVal c1 c2
    let vs ← hexDecode rest
    some (v :: vs)
  | _ => none

/-- The message built by check_hash on a mismatch. -/
def invalidDigestMsg (expected actual : Str) : Str :=
  "Invalid digest. Expected ".toList ++ expected ++ ", got ".toList ++ actual
    ++ ".".toList

/-- Embeds DigestReader::check_hash (src/digest.rs): finalize the running
hash of the consumed bytes and compare against the expected hex value;
a mismatch is an InvalidData error naming both values. -/
def checkHash (hashFn : List Nat → List Nat) (consumed : List Nat)
    (expected : Str) : Except IOError Nat :=
  let out := hashFn consumed
  if hexMatch out expected then .ok 0
  else .error ⟨.invalidData, invalidDigestMsg expected (hexEncode out)⟩

/-- Embeds DigestReader::read driven to EOF by Read::read_to_end with a
positive buffer size (chunk + 1): each read takes at most chunk + 1 bytes
from the remaining input and feeds them to the running hash, modelled as
the list of all bytes consumed so far; at EOF the hash of everything
consumed is checked and the collected bytes are returned. -/
def readToEnd (hashFn : List Nat → List Nat) (chunk : Nat) (expected : Str) :
    List Nat → List Nat → Except IOError (List Nat)
  | consumed, [] =>
    match checkHash hashFn consumed expected with
    | .ok _ => .ok consumed
    | .error e => .error e
  | consumed, b :: rest =>
    readToEnd hashFn chunk expected
      (consumed ++ (b :: rest).take (chunk + 1)) ((b :: rest).drop (chunk + 1))
termination_by _ remaining => remaining.length
decreasing_by
  simp [List.length_drop]
  omega

theorem readToEnd_eq (hashFn : List Nat → List Nat) (chunk : Nat)
    (expected : Str) :
    ∀ (remaining consumed : List Nat),
      readToEnd hashFn chunk expected consumed remaining =
        match checkHash hashFn (consumed ++ remaining) expected with
        | .ok _ => .ok (consumed ++ remaining)
        | .error e => .error e := by
  have main : ∀ (n : Nat) (remaining : List Nat), remaining.length ≤ n →
      ∀ consumed, readToEnd hashFn chunk expected consumed remaining =
        match checkHash hashFn (consumed ++ remaining) expected with
        | .ok _ => .ok (consumed ++ remaining)
        | .error e => .error e := by
    intro n
    induction n with
    | zero =>
      intro remaining h consumed
      have hnil : remaining = [] := List.eq_nil_of_length_eq_zero (by omega)
      subst hnil
      simp [readToEnd]
    | succ n ih =>
      intro remaining h consumed
      cases remaining with
      | nil => simp [readToEnd]
      | cons b rest =>
        rw [readToEnd]
        rw [ih ((b :: rest).drop (chunk + 1))
          (by simp [List.length_drop] at h ⊢; omega)
          (consumed ++ (b :: rest).take (chunk + 1))]
        rw [List.append_assoc, List.take_append_drop]
  exact fun remaining consumed => main remaining.length remaining le_rfl consumed

theorem hexMatch_iff (out : List Nat) :
    ∀ expected : Str, expected.length = 2 * out.length →
      (hexMatch out expected = true ↔ hexDecode expected = some out) := by
  induction out with
  | nil =>
    intro expected hlen
    cases expected with
    | nil => simp [hexMatch, hexDecode]
    | cons c cs => simp at hlen
  | cons b bs ih =>
    intro expected hlen
    cases expected with
    | nil => simp at hlen
    | cons c1 tail =>
      cases tail with
      | nil => simp at hlen; omega
      | cons c2 rest =>
        have hlen' : rest.length = 2 * bs.length := by
          simp at hlen
          omega
        cases hv : hexPairVal c1 c2 with
        | none => simp [hexMatch, hexDecode, hv]
        | some v =>
          by_cases hvb : v = b
          · subst hvb
            rw [show hexMatch (v :: bs) (c1 :: c2 :: rest) = hexMatch bs rest from by
              simp [hexMatch, hv]]
            rw [ih rest hlen']
            cases hd : hexDecode rest with
            | none => simp [hexDecode, hv, hd]
            | some vs => simp [hexDecode, hv, hd]
          · have hmf : hexMatch (b :: bs) (c1 :: c2 :: rest) = false := by
              simp [hexMatch, hv, hvb]
            rw [hmf]
            simp only [Bool.false_eq_true, false_iff]
            intro hcon
            cases hd : hexDecode rest with
            | none =>
              rw [show hexDecode (c1 :: c2 :: rest) = none from by
                simp [hexDecode, hv, hd]] at hcon
              cases hcon
            | some vs =>
              rw [show hexDecode (c1 :: c2 :: rest) = some (v :: vs) from by
                simp [hexDecode, hv, hd]] at hcon
              have hinj := Option.some.inj hcon
              injection hinj with h1 h2
              exact hvb h1

/-- C3: a wrapped reader drained to EOF returns exactly the underlying
bytes when the hash of everything consumed decodes from the expected hex
value; otherwise it fails with an InvalidData error whose message contains
both the expected and the actual hash in hexadecimal. -/
theorem C3_digest_reader (hashFn : List Nat → List Nat) (chunk : Nat)
    (expected : Str) (data : List Nat)
    (hlen : expected.length = 2 * (hashFn data).length) :
    (hexDecode expected = some (hashFn data) →
        readToEnd hashFn chunk expected [] data = .ok data)
    ∧ (hexDecode expected ≠ some (hashFn data) →
        readToEnd hashFn chunk expected [] data =
          .error ⟨.invalidData, invalidDigestMsg expected (hexEncode (hashFn data))⟩
        ∧ (∃ u v, invalidDigestMsg expected (hexEncode (hashFn data)) =
            u ++ expected ++ v)
        ∧ (∃ u v, invalidDigestMsg expected (hexEncode (hashFn data)) =
            u ++ hexEncode (hashFn data) ++ v)) := by
  have heq := readToEnd_eq hashFn chunk expected data []
  simp only [List.nil_append] at heq
  constructor
  · intro hdec
    have hm : hexMatch (hashFn data) expected = true :=
      (hexMatch_iff (hashFn data) expected hlen).mpr hdec
    rw [heq]
    simp [checkHash, hm]
  · intro hdec
    have hm : ¬ hexMatch (hashFn data) expected = true := fun ht =>
      hdec ((hexMatch_iff (hashFn data) expected hlen).mp ht)
    refine ⟨?_, ?_, ?_⟩
    · rw [heq]
      simp [checkHash, hm]
    · exact ⟨"Invalid digest. Expected ".toList,
        ", got ".toList ++ hexEncode (hashFn data) ++ ".".toList,
        by simp [invalidDigestMsg]⟩
    · exact ⟨"Invalid digest. Expected ".toList ++ expected ++ ", got ".toList,
        ".".toList, by simp [invalidDigestMsg]⟩

/-- C3 witness: with a toy hash returning the input length, a two-byte
stream with matching expected hex is read back unchanged. -/
theorem C3_digest_reader_witness :
    readToEnd (fun l => [l.length % 256]) 0 ['0', '2'] [] [7, 7] = .ok [7, 7] :=
  (C3_digest_reader (fun l => [l.length % 256]) 0 ['0', '2'] [7, 7]
    (by decide)).1 (by decide)

/-! ## Manifest resolution (claim C8) -/

/-- Known media types (src/reference/mediatype.rs). -/
inductive MediaType
  | DockerFsTarGzip
  | DockerImageV1
  | DockerManifestList
  | DockerManifestV2
  | OciConfig
  | OciFsTar
  | OciFsTarGzip
  | OciFsTarZstd
  | OciImageIndex
  | OciManifestV1
deriving DecidableEq

/-- Errors of the unpacker (src/unpacker/mod.rs, UnpackError); the HTTP
and JSON payloads are abstracted to message strings, and the
sandbox-feature variant is omitted. -/
inductive UnpackError
  | io (e : IOError) (path : Str)
  | interrupted
  | httpRequest (msg : Str)
  | json (msg : Str)
  | invalidDigest (e : DigestError)
  | missingContentType
  | invalidContentType (mt : MediaType)
  | missingArchitecture
deriving DecidableEq

/-- A platform record of an index entry (src/manifests.rs). -/
structure Platform where
  architecture : Str
  os : Str
deriving DecidableEq

/-- An entry of a manifest list or image index (src/manifests.rs). -/
structure IndexManifest where
  digest : Str
  platform : Platform
deriving DecidableEq

/-- The find predicate of parse_index. -/
def platformMatches (architecture os : Str) (i : IndexManifest) : Bool :=
  i.platform.architecture == architecture && i.platform.os == os

/-- Embeds parse_index (src/manifests.rs): the first index entry whose
platform matches both the architecture and the os provides the digest;
no match is a MissingArchitecture error; the digest string goes through
the Digest parser. -/
def parse_index (architecture os : Str) (manifests : List IndexManifest) :
    Except UnpackError Digest :=
  match manifests.find? (platformMatches architecture os) with
  | some item =>
    match digestTryFrom item.digest with
    | .ok d => .ok d
    | .error e => .error (.invalidDigest e)
  | none => .error .missingArchitecture

/-- A blob descriptor (src/manifests.rs, Blob). -/
structure Blob where
  mediaType : MediaType
  digest : Digest
  size : Nat
deriving DecidableEq

/-- A concrete manifest (src/manifests.rs, Manifest). -/
structure Manifest where
  config : Blob
  layers : List Blob
deriving DecidableEq

/-- Outcome of one iteration of the manifest resolution loop. -/
inductive ResolveStep
  | next (d : Digest)
  | finish (m : Manifest)
  | failure (e : UnpackError)
deriving DecidableEq

/-- Embeds the Content-Type dispatch of manifests::get (src/manifests.rs);
the response body is abstracted as its already-decoded document (serde is
external): an index or manifest list continues the loop with the digest
selected by parse_index; a concrete manifest finishes; any other
recognized media type is an InvalidContentType failure. -/
def resolveStep (architecture os : Str) (contentType : MediaType)
    (indexDoc : List IndexManifest) (manifestDoc : Manifest) : ResolveStep :=
  match contentType with
  | .DockerManifestList | .OciImageIndex =>
    match parse_index architecture os indexDoc with
    | .ok d => .next d
    | .error e => .failure e
  | .DockerManifestV2 | .OciManifestV1 => .finish manifestDoc
  | other => .failure (.invalidContentType other)

theorem find?_first {α : Type} (p : α → Bool) (l : List α) :
    ∀ n x, l.get? n = some x → p x = true →
      (∀ m, m < n → ∀ y, l.get? m = some y → p y = false) →
      l.find? p = some x := by
  induction l with
  | nil => intro n x h; cases h
  | cons a as ih =>
    intro n x hget hx hmin
    cases n with
    | zero =>
      cases hget
      exact List.find?_cons_of_pos as hx
    | succ n =>
      have ha : p a = false := hmin 0 (Nat.succ_pos n) a rfl
      rw [List.find?_cons_of_neg as (by simp [ha])]
      exact ih n x hget hx fun m hm y hy => hmin (m + 1) (Nat.succ_lt_succ hm) y hy

/-- C8: on an index or manifest-list content type, the resolver selects
the first index entry whose platform architecture and os both equal the
requested values, and that entry's digest becomes the next locator; when
no entry matches both, resolution fails with MissingArchitecture. -/
theorem C8_index_selection (architecture os : Str) (ct : MediaType)
    (idx : List IndexManifest) (mdoc : Manifest)
    (hct : ct = .DockerManifestList ∨ ct = .OciImageIndex) :
    ((∀ e ∈ idx, platformMatches architecture os e = false) →
        resolveStep architecture os ct idx mdoc = .failure .missingArchitecture)
    ∧ (∀ n entry, idx.get? n = some entry →
        platformMatches architecture os entry = true →
        (∀ m, m < n → ∀ e', idx.get? m = some e' →
          platformMatches architecture os e' = false) →
        (entry.platform.architecture = architecture
          ∧ entry.platform.os = os
          ∧ ∀ d, digestTryFrom entry.digest = .ok d →
              resolveStep architecture os ct idx mdoc = .next d)) := by
  constructor
  · intro hnone
    have hfind : idx.find? (platformMatches architecture os) = none := by
      rw [List.find?_eq_none]
      intro x hx
      simp [hnone x hx]
    have hpi : parse_index architecture os idx = .error .missingArchitecture := by
      rw [parse_index, hfind]
    rcases hct with h | h <;> subst h <;> simp [resolveStep, hpi]
  · intro n entry hget hmatch hmin
    have heq : entry.platform.architecture = architecture ∧
        entry.platform.os = os := by
      have := hmatch
      simp only [platformMatches, Bool.and_eq_true, beq_iff_eq] at this
      exact this
    refine ⟨heq.1, heq.2, ?_⟩
    intro d hd
    have hfind : idx.find? (platformMatches architecture os) = some entry :=
      find?_first (platformMatches architecture os) idx n entry hget hmatch
        fun m hm y hy => hmin m hm y hy
    have hpi : parse_index architecture os idx = .ok d := by
      simp only [parse_index, hfind, hd]
    rcases hct with h | h <;> subst h <;> simp [resolveStep, hpi]

/-- C8 witness: with one non-matching and one matching entry, the second
entry is selected and its digest becomes the next locator. -/
theorem C8_index_selection_witness :
    resolveStep ['a'] ['l'] .OciImageIndex
      [⟨['z'], ⟨['x'], ['l']⟩⟩,
       ⟨sha256Head ++ List.replicate 64 'b', ⟨['a'], ['l']⟩⟩]
      ⟨⟨.OciConfig, ⟨sha256Head ++ List.replicate 64 'c', .sha256⟩, 0⟩, []⟩ =
      .next ⟨sha256Head ++ List.replicate 64 'b', .sha256⟩ :=
  ((C8_index_selection ['a'] ['l'] .OciImageIndex
      [⟨['z'], ⟨['x'], ['l']⟩⟩,
       ⟨sha256Head ++ List.replicate 64 'b', ⟨['a'], ['l']⟩⟩]
      ⟨⟨.OciConfig, ⟨sha256Head ++ List.replicate 64 'c', .sha256⟩, 0⟩, []⟩
      (Or.inr rfl)).2 1 ⟨sha256Head ++ List.replicate 64 'b', ⟨['a'], ['l']⟩⟩
      rfl (by decide)
      (by
        intro m hm e' he'
        have hm0 : m = 0 := by omega
        subst hm0
        have he2 : some (⟨['z'], ⟨['x'], ['l']⟩⟩ : IndexManifest) = some e' := he'
        cases he2
        decide)).2.2
    ⟨sha256Head ++ List.replicate 64 'b', .sha256⟩ (by rfl)

/-! ## Layer extraction progress events (claim C7) -/

/-- The progress events a single layer extraction emits. -/
inductive LayerEvent
  | layerStart (archiveLen : Nat)
  | layerProgress (position : Nat)
deriving DecidableEq

/-- The reads performed while decoding one tar entry, threaded through the
PositionTracker (src/unpacker/layers.rs): a request of size req takes
min req remaining bytes from the layer file and adds exactly that count to
the position. Returns (remaining, position) after all requests. -/
def consumeReads : List Nat → Nat → Nat → Nat × Nat
  | [], remaining, pos => (remaining, pos)
  | req :: reqs, remaining, pos =>
    consumeReads reqs (remaining - min req remaining) (pos + min req remaining)

/-- The entry loop of unpack_layer (src/unpacker/layers.rs): before each
entry a layer_progress event with the tracked position is emitted, then
the entry is decoded (performing its reads), and a final layer_progress
closes the layer. The per-entry read requests of the decompressor and the
tar walker are abstracted as arbitrary sizes. -/
def layerEventsLoop : List (List Nat) → Nat → Nat → List LayerEvent
  | [], _, pos => [.layerProgress pos]
  | reqs :: rest, remaining, pos =>
    .layerProgress pos ::
      layerEventsLoop rest (consumeReads reqs remaining pos).1
        (consumeReads reqs remaining pos).2

/-- Embeds the event emission of unpack_layer: layer_start with the
archive length obtained from seeking to the end, then the entry loop
starting at position 0 with the whole archive unread. -/
def unpackLayerEvents (archiveLen : Nat) (entryReads : List (List Nat)) :
    List LayerEvent :=
  .layerStart archiveLen :: layerEventsLoop entryReads archiveLen 0

/-- The positions carried by the layer_progress events, in order. -/
def progressPositions (evs : List LayerEvent) : List Nat :=
  evs.filterMap fun e =>
    match e with
    | .layerProgress p => some p
    | _ => none

@[simp] theorem progressPositions_nil : progressPositions [] = [] := rfl

@[simp] theorem progressPositions_cons_start (n : Nat) (rest : List LayerEvent) :
    progressPositions (.layerStart n :: rest) = progressPositions rest := rfl

@[simp] theorem progressPositions_cons_progress (p : Nat)
    (rest : List LayerEvent) :
    progressPositions (.layerProgress p :: rest) = p :: progressPositions rest :=
  rfl

theorem consumeReads_spec (reqs : List Nat) :
    ∀ remaining pos : Nat,
      pos ≤ (consumeReads reqs remaining pos).2 ∧
      (consumeReads reqs remaining pos).2 + (consumeReads reqs remaining pos).1 =
        pos + remaining := by
  induction reqs with
  | nil => intro r p; simp [consumeReads]
  | cons req reqs ih =>
    intro r p
    have h := ih (r - min req r) (p + min req r)
    simp only [consumeReads]
    refine ⟨le_trans (Nat.le_add_right p (min req r)) h.1, ?_⟩
    have h2 := h.2
    omega

theorem layerEventsLoop_spec (entryReads : List (List Nat)) :
    ∀ remaining pos : Nat,
      (∀ q ∈ progressPositions (layerEventsLoop entryReads remaining pos),
        pos ≤ q ∧ q ≤ pos + remaining) ∧
      (progressPositions (layerEventsLoop entryReads remaining pos)).Pairwise
        (· ≤ ·) ∧
      (∀ e ∈ layerEventsLoop entryReads remaining pos,
        ∃ q, e = .layerProgress q) := by
  induction entryReads with
  | nil =>
    intro r p
    refine ⟨?_, ?_, ?_⟩
    · intro q hq
      simp [layerEventsLoop] at hq
      exact ⟨by omega, by omega⟩
    · simp [layerEventsLoop]
    · intro e he
      simp [layerEventsLoop] at he
      exact ⟨p, he⟩
  | cons reqs rest ih =>
    intro r p
    obtain ⟨hcr1, hcr2⟩ := consumeReads_spec reqs r p
    obtain ⟨ih1, ih2, ih3⟩ :=
      ih (consumeReads reqs r p).1 (consumeReads reqs r p).2
    refine ⟨?_, ?_, ?_⟩
    · intro q hq
      simp only [layerEventsLoop, progressPositions_cons_progress,
        List.mem_cons] at hq
      rcases hq with hq | hq
      · exact ⟨by omega, by omega⟩
      · obtain ⟨hq1, hq2⟩ := ih1 q hq
        exact ⟨le_trans hcr1 hq1, by omega⟩
    · simp only [layerEventsLoop, progressPositions_cons_progress]
      rw [List.pairwise_cons]
      exact ⟨fun q hq => le_trans hcr1 (ih1 q hq).1, ih2⟩
    · intro e he
      simp only [layerEventsLoop, List.mem_cons] at he
      rcases he with he | he
      · exact ⟨p, he⟩
      · exact ih3 e he

/-- C7: the first event of a layer extraction is layer_start with the
archive length; every later event is a layer_progress; the reported
positions are nondecreasing and never exceed the archive length. -/
theorem C7_layer_progress (archiveLen : Nat) (entryReads : List (List Nat)) :
    (unpackLayerEvents archiveLen entryReads).head? =
        some (.layerStart archiveLen)
    ∧ (∀ e ∈ (unpackLayerEvents archiveLen entryReads).tail,
        ∃ q, e = .layerProgress q)
    ∧ (∀ q ∈ progressPositions (unpackLayerEvents archiveLen entryReads),
        q ≤ archiveLen)
    ∧ (progressPositions (unpackLayerEvents archiveLen entryReads)).Pairwise
        (· ≤ ·) := by
  obtain ⟨h1, h2, h3⟩ := layerEventsLoop_spec entryReads archiveLen 0
  refine ⟨rfl, ?_, ?_, ?_⟩
  · intro e he
    exact h3 e he
  · intro q hq
    simp only [unpackLayerEvents, progressPositions_cons_start] at hq
    have := (h1 q hq).2
    omega
  · simp only [unpackLayerEvents, progressPositions_cons_start]
    exact h2

/-! ## Target directory validation (claim C10) -/

/-- Unix error numbers appearing in the embedded filesystem code. -/
inductive Errno
  | noent
  | exist
  | notempty
  | notdir
  | isdir
  | perm
  | inval
deriving DecidableEq

/-- The state of the target path on the host filesystem. -/
inductive TargetState
  | missing
  | file
  | dir (entries : List Str)
deriving DecidableEq

/-- Embeds Unpacker::check_empty_dir (src/unpacker/mod.rs): a missing
target is created together with its parents (std::fs::create_dir_all,
modelled as a primitive); an existing directory must have no entries
(ENOTEMPTY otherwise); read_dir of a non-directory is ENOTDIR. Returns
the target state after the check. -/
def check_empty_dir (st : TargetState) : Except Errno TargetState :=
  match st with
  | .missing => .ok (.dir [])
  | .file => .error .notdir
  | .dir entries =>
    if entries.isEmpty then .ok (.dir entries) else .error .notempty

/-- Actions of the unpack pipeline; everything after the target check
(client construction, registry requests, blob downloads, file writes) is
abstracted as an arbitrary action list. -/
inductive UnpackAction
  | createDirAll (target : Str)
  | registryRequest (url : Str)
  | writeFile (path : Str)
deriving DecidableEq

/-- Embeds the head of Unpacker::unpack (src/unpacker/mod.rs): the target
check runs before the HTTP client is built and before any file write; on
failure the unpack stops with the errno paired with the target path and
performs no action at all; on success the check phase itself performs only
the create_dir_all of a missing target, and then the rest of the pipeline
runs. Returns the target state after the check, the actions performed, and
the error if any. -/
def unpackHead (target : Str) (st : TargetState) (rest : List UnpackAction) :
    TargetState × List UnpackAction × Option (Errno × Str) :=
  match check_empty_dir st with
  | .error e => (st, [], some (e, target))
  | .ok st' =>
    (st', (if st = .missing then [.createDirAll target] else []) ++ rest, none)

/-- C10: a nonempty target directory stops the unpack immediately with
ENOTEMPTY carrying the target path and no action performed; a missing
target is created (with parents) before the rest of the pipeline runs; an
empty directory passes the check untouched; a non-directory target is an
error before any action as well. -/
theorem C10_target_check (target : Str) (st : TargetState)
    (rest : List UnpackAction) :
    (∀ entries, st = .dir entries → entries ≠ [] →
        unpackHead target st rest = (st, [], some (.notempty, target)))
    ∧ (st = .missing →
        unpackHead target st rest = (.dir [], .createDirAll target :: rest, none))
    ∧ (∀ entries, st = .dir entries → entries = [] →
        unpackHead target st rest = (st, rest, none))
    ∧ (st = .file → unpackHead target st rest = (st, [], some (.notdir, target))) := by
  refine ⟨?_, ?_, ?_, ?_⟩
  · intro entries hst hne
    subst hst
    have hie : entries.isEmpty = false := by
      cases entries with
      | nil => exact absurd rfl hne
      | cons a as => rfl
    simp [unpackHead, check_empty_dir, hie]
  · intro hst
    subst hst
    simp [unpackHead, check_empty_dir]
  · intro entries hst hee
    subst hst
    subst hee
    simp [unpackHead, check_empty_dir]
  · intro hst
    subst hst
    simp [unpackHead, check_empty_dir]

/-- C10 witness: a target directory with one entry fails with ENOTEMPTY
and performs no action, whatever the rest of the pipeline would do. -/
theorem C10_target_check_witness :
    unpackHead ['t'] (.dir [['x']]) [.registryRequest ['u']] =
      (.dir [['x']], [], some (.notempty, ['t'])) :=
  (C10_target_check ['t'] (.dir [['x']]) [.registryRequest ['u']]).1
    [['x']] rfl (by decide)

/-! ## The layer extractor filesystem model (claims C2 and C5) -/

/-- A node of the extracted tree. Directory modes are applied only at the
deferred-metadata stage and are not tracked on directory nodes. -/
inductive FsNode
  | file (data : List Nat) (mode : Nat) (mtime : Nat) (uid gid : Option Nat)
  | symlink (target : Str) (mtime : Nat) (uid gid : Option Nat)
  | dir
deriving DecidableEq

/-- A path below the rootfs directory, as components. -/
abbrev FsPath := List Str

/-- The extracted tree as a finite map from paths to nodes; the rootfs
root itself is implicit. -/
abbrev Fs := List (FsPath × FsNode)

/-- First binding of a path in the tree. -/
def fsLookup (fs : Fs) (p : FsPath) : Option FsNode :=
  match fs.find? (fun e => e.1 == p) with
  | some e => some e.2
  | none => none

/-- Whether p is strictly below anc. -/
def isStrictUnder (anc p : FsPath) : Bool :=
  anc.isPrefixOf p && decide (anc.length < p.length)

/-- Modelled from the spec: crate::fs::remove_subtree is not under src/ —
"remove the entire subtree contents of that directory (children only),
leaving the directory itself". -/
def remove_subtree (fs : Fs) (dirPath : FsPath) : Fs :=
  fs.filter fun e => !isStrictUnder dirPath e.1

/-- What crate::fs::remove_entry removed. -/
inductive RemovedEntry
  | directory
  | nonDirectory
deriving DecidableEq

/-- Modelled from the spec: crate::fs::remove_entry is not under src/ —
"delete the existing entry", recursively for a directory, and report
whether the deleted entry "was itself a directory"; a missing entry is
ENOENT as for plain unlink. -/
def remove_entry (fs : Fs) (parent : FsPath) (name : Str) :
    Except Errno (Fs × RemovedEntry) :=
  match fsLookup fs (parent ++ [name]) with
  | none => .error .noent
  | some .dir =>
    .ok (fs.filter fun e => !(parent ++ [name]).isPrefixOf e.1, .directory)
  | some _ => .ok (fs.filter fun e => !(e.1 == parent ++ [name]), .nonDirectory)

/-- Embeds Directory::open_directory with create = true (src/fs.rs),
resolved inside the root: descend through existing directories, creating
missing ones with mkdirat (mode 0755); a non-directory on the way is
ENOTDIR. Symlinks on the way are not modelled: the claims C2 and C5 do
not involve symlinked parents. -/
def openDirCreate : Fs → FsPath → FsPath → Except Errno Fs
  | fs, _, [] => .ok fs
  | fs, base, c :: rest =>
    match fsLookup fs (base ++ [c]) with
    | some .dir => openDirCreate fs (base ++ [c]) rest
    | some _ => .error .notdir
    | none => openDirCreate ((base ++ [c], .dir) :: fs) (base ++ [c]) rest

/-- Directory resolution without creation (openat2 with RESOLVE_IN_ROOT
and no creation), symlink-free configurations. -/
def resolveDir : Fs → FsPath → FsPath → Except Errno Unit
  | _, _, [] => .ok ()
  | fs, base, c :: rest =>
    match fsLookup fs (base ++ [c]) with
    | some .dir => resolveDir fs (base ++ [c]) rest
    | some _ => .error .notdir
    | none => .error .noent

/-- A deferred directory-metadata record (src/unpacker/mod.rs,
DirectoryMetadataEntry). -/
structure DirMetaEntry where
  mode : Nat
  mtime : Nat
  uid : Option Nat
  gid : Option Nat
deriving DecidableEq

/-- The deferred metadata map, keyed like the BTreeMap of the source. -/
abbrev MetaMap := List ((Nat × Str) × DirMetaEntry)

/-- BTreeMap::insert: replace any binding of the key. -/
def metaInsert (m : MetaMap) (k : Nat × Str) (v : DirMetaEntry) : MetaMap :=
  (k, v) :: m.filter fun e => !(e.1 == k)

/-- BTreeMap::remove. -/
def metaRemove (m : MetaMap) (k : Nat × Str) : MetaMap :=
  m.filter fun e => !(e.1 == k)

/-- The extractor state threaded through Context::unpack: the tree, the
keys held by the directory-handle cache, and the deferred metadata map. -/
structure UnpackState where
  fs : Fs
  dirsCache : List FsPath
  dirsMetadata : MetaMap
deriving DecidableEq

/-- Tar entry types distinguished by the dispatch. -/
inductive EntryType
  | directory
  | regular
  | symlink
  | link
  | other
deriving DecidableEq

/-- A decoded tar entry: path, type, body, link target and header fields.
The fallible header accessors (mode, mtime, uid, gid) are modelled as
total, i.e. the header is well formed. -/
structure TarEntry where
  path : Str
  etype : EntryType
  data : List Nat
  linkName : Option Str
  mode : Nat
  mtime : Nat
  uid : Nat
  gid : Nat
deriving DecidableEq

/-- get_entry_owner (src/unpacker/layers.rs): a uid of 0 is dropped. -/
def entryOwnerUid (e : TarEntry) : Option Nat :=
  if e.uid > 0 then some e.uid else none

/-- get_entry_owner (src/unpacker/layers.rs): a gid of 0 is dropped. -/
def entryOwnerGid (e : TarEntry) : Option Nat :=
  if e.gid > 0 then some e.gid else none

/-- The whiteout marker ".wh." (WHITEOUT_PREFIX in the source). -/
def whMark : Str := ['.', 'w', 'h', '.']

/-- The opaque remainder ".wh..opq" (WHITEOUT_OPAQUE in the source); the
full entry name is ".wh..wh..opq". -/
def whOpaque : Str := ['.', 'w', 'h', '.', '.', 'o', 'p', 'q']

/-- Components of a rendered absolute parent path: openat2 with
RESOLVE_IN_ROOT resolves the leading '/' against the root descriptor, so
the path splits back into its non-empty segments. -/
def absComponents (s : Str) : FsPath :=
  (splitOnSlash s).filter fun seg => !seg.isEmpty

/-- Embeds Context::process_whiteout (src/unpacker/layers.rs): the exact
remainder ".wh..opq" removes the contents of the directory itself
(remove_subtree at "."); any other remainder removes the sibling it
names (remove_entry). -/
def process_whiteout (fs : Fs) (dir : FsPath) (whiteout : Str) :
    Except Errno Fs :=
  if whiteout = whOpaque then .ok (remove_subtree fs dir)
  else
    match remove_entry fs dir whiteout with
    | .ok (fs', _) => .ok fs'
    | .error e => .error e

/-- Embeds Context::unpack_dir (src/unpacker/layers.rs): open or create
the parent through the handle cache, mkdirat the new directory with mode
0700 (EEXIST is ignored when the existing entry is a directory, fatal
otherwise), and record mode/mtime/uid/gid in the deferred metadata map,
keyed by the re-normalized full entry path. -/
def unpack_dir (st : UnpackState) (parentPath fileName : Str)
    (entry : TarEntry) : Except Errno UnpackState :=
  let parentC := absComponents parentPath
  match openDirCreate st.fs [] parentC with
  | .error e => .error e
  | .ok fs1 =>
    let p := parentC ++ [fileName]
    let mk : Except Errno Fs :=
      match fsLookup fs1 p with
      | none => .ok ((p, .dir) :: fs1)
      | some .dir => .ok fs1
      | some _ => .error .exist
    match mk with
    | .error e => .error e
    | .ok fs2 =>
      match normalize_path entry.path with
      | .error _ => .error .inval
      | .ok (pp, b) =>
        .ok { fs := fs2,
              dirsCache := parentC :: st.dirsCache,
              dirsMetadata :=
                metaInsert st.dirsMetadata (metadataKey (pushPath pp b))
                  ⟨entry.mode, entry.mtime, entryOwnerUid entry,
                   entryOwnerGid entry⟩ }

/-- Embeds Context::unpack_regular (src/unpacker/layers.rs): open the
parent through the handle cache, then openat2 with CREATE|EXCL|WRONLY
resolved BENEATH the parent, mode from the low 12 bits of the header; on
EEXIST delete the existing entry and retry (the retry succeeds in this
model because the removal makes the exclusive create succeed), dropping
the deferred-metadata key of the full path when a directory was deleted;
then the body is copied and owner and mtime are stamped. -/
def unpack_regular (st : UnpackState) (parentPath fileName : Str)
    (entry : TarEntry) : Except Errno UnpackState :=
  let mode := entry.mode % 4096
  let parentC := absComponents parentPath
  match openDirCreate st.fs [] parentC with
  | .error e => .error e
  | .ok fs1 =>
    let p := parentC ++ [fileName]
    let newNode : FsNode :=
      .file entry.data mode entry.mtime (entryOwnerUid entry)
        (entryOwnerGid entry)
    match fsLookup fs1 p with
    | none =>
      .ok { fs := (p, newNode) :: fs1,
            dirsCache := parentC :: st.dirsCache,
            dirsMetadata := st.dirsMetadata }
    | some _ =>
      match remove_entry fs1 parentC fileName with
      | .error e => .error e
      | .ok (fs2, removed) =>
        .ok { fs := (p, newNode) :: fs2,
              dirsCache := parentC :: st.dirsCache,
              dirsMetadata :=
                if removed = .directory then
                  metaRemove st.dirsMetadata
                    (metadataKey (pushPath parentPath fileName))
                else st.dirsMetadata }

/-- Embeds Context::unpack_link (src/unpacker/layers.rs): a missing link
name is NotFound; a symlink is created in the parent (an EEXIST is
resolved by unlinking, which fails on a directory); a hardlink resolves
the normalized source parent inside the root and links the source node
to the destination, modelled by copying the node (inode aliasing is not
modelled, nor is the source-parent descriptor cache, which only avoids
repeated openat2 calls). -/
def unpack_link (st : UnpackState) (parentPath fileName : Str)
    (entry : TarEntry) : Except Errno UnpackState :=
  match entry.linkName with
  | none => .error .noent
  | some dest =>
    let parentC := absComponents parentPath
    match openDirCreate st.fs [] parentC with
    | .error e => .error e
    | .ok fs1 =>
      let p := parentC ++ [fileName]
      let place : FsNode → Except Errno UnpackState := fun node =>
        match fsLookup fs1 p with
        | some .dir => .error .isdir
        | some _ =>
          .ok { fs := (p, node) :: fs1.filter fun e => !(e.1 == p),
                dirsCache := parentC :: st.dirsCache,
                dirsMetadata := st.dirsMetadata }
        | none =>
          .ok { fs := (p, node) :: fs1,
                dirsCache := parentC :: st.dirsCache,
                dirsMetadata := st.dirsMetadata }
      if entry.etype = .symlink then
        place (.symlink dest entry.mtime (entryOwnerUid entry)
          (entryOwnerGid entry))
      else
        match normalize_path dest with
        | .error _ => .error .inval
        | .ok (oldParent, oldName) =>
          let oldC := absComponents oldParent
          match resolveDir fs1 [] oldC with
          | .error e => .error e
          | .ok _ =>
            match fsLookup fs1 (oldC ++ [oldName]) with
            | none => .error .noent
            | some .dir => .error .perm
            | some node => place node

/-- Embeds Context::unpack (src/unpacker/layers.rs): normalize the entry
path; a file name starting with ".wh." is a whiteout — open the parent
(create-if-missing through the handle cache), process the whiteout, and
clear the directory-handle cache in full; any other entry dispatches on
its type, and unsupported types are reported as skipped, leaving the
state unchanged. -/
def unpackEntry (entry : TarEntry) (st : UnpackState) :
    Except Errno UnpackState :=
  match normalize_path entry.path with
  | .error _ => .error .inval
  | .ok (parentPath, fileName) =>
    match stripLead whMark fileName with
    | some whiteout =>
      match openDirCreate st.fs [] (absComponents parentPath) with
      | .error e => .error e
      | .ok fs1 =>
        match process_whiteout fs1 (absComponents parentPath) whiteout with
        | .error e => .error e
        | .ok fs2 =>
          .ok { fs := fs2, dirsCache := [], dirsMetadata := st.dirsMetadata }
    | none =>
      match entry.etype with
      | .directory => unpack_dir st parentPath fileName entry
      | .regular => unpack_regular st parentPath fileName entry
      | .symlink => unpack_link st parentPath fileName entry
      | .link => unpack_link st parentPath fileName entry
      | .other => .ok st

@[simp] theorem fsLookup_nil (p : FsPath) : fsLookup [] p = none := rfl

theorem fsLookup_cons (e : FsPath × FsNode) (rest : Fs) (p : FsPath) :
    fsLookup (e :: rest) p =
      if e.1 == p then some e.2 else fsLookup rest p := by
  cases he : e.1 == p <;> simp [fsLookup, List.find?_cons, he]

theorem fsLookup_filter (fs : Fs) (pred : FsPath → Bool) (p : FsPath) :
    fsLookup (fs.filter fun e => pred e.1) p =
      if pred p then fsLookup fs p else none := by
  induction fs with
  | nil => cases hp : pred p <;> simp [hp]
  | cons e rest ih =>
    cases hep : e.1 == p
    · cases hpe : pred e.1
      · rw [List.filter_cons, if_neg (by simp [hpe]), ih, fsLookup_cons]
        cases hp : pred p <;> simp [hp, hep]
      · rw [List.filter_cons, if_pos (by simp [hpe]), fsLookup_cons, hep, ih,
          fsLookup_cons, hep]
        simp
    · have hp : e.1 = p := eq_of_beq hep
      subst hp
      cases hpe : pred e.1
      · rw [List.filter_cons, if_neg (by simp [hpe]), ih, hpe]
        simp [hpe]
      · rw [List.filter_cons, if_pos (by simp [hpe]), fsLookup_cons,
          fsLookup_cons]
        simp [hpe]

theorem openDirCreate_lookup (path : FsPath) :
    ∀ (fs : Fs) (base : FsPath) (fs' : Fs),
      openDirCreate fs base path = .ok fs' →
      ∀ p n, fsLookup fs' p = some n → fsLookup fs p = some n ∨ n = .dir := by
  induction path with
  | nil =>
    intro fs base fs' h p n hl
    cases h
    exact Or.inl hl
  | cons c rest ih =>
    intro fs base fs' h p n hl
    cases hfl : fsLookup fs (base ++ [c]) with
    | some node =>
      cases node with
      | dir =>
        simp only [openDirCreate, hfl] at h
        exact ih fs (base ++ [c]) fs' h p n hl
      | file data mode mtime uid gid =>
        simp only [openDirCreate, hfl] at h
        cases h
      | symlink target mtime uid gid =>
        simp only [openDirCreate, hfl] at h
        cases h
    | none =>
      simp only [openDirCreate, hfl] at h
      rcases ih _ _ _ h p n hl with hval | hdir
      · rw [fsLookup_cons] at hval
        cases hbp : (base ++ [c]) == p
        · rw [hbp] at hval
          simp at hval
          exact Or.inl hval
        · rw [hbp] at hval
          simp at hval
          exact Or.inr hval.symm
      · exact Or.inr hdir

theorem isPrefixOf_self (l : FsPath) : l.isPrefixOf l = true := by
  induction l with
  | nil => rfl
  | cons a as ih => simp [List.isPrefixOf, ih]

theorem remove_entry_filter (fs : Fs) (parent : FsPath) (name : Str)
    (fs' : Fs) (r : RemovedEntry)
    (h : remove_entry fs parent name = .ok (fs', r)) :
    ∃ pred : FsPath → Bool,
      fs' = (fs.filter fun e => pred e.1) ∧ pred (parent ++ [name]) = false := by
  unfold remove_entry at h
  cases hfl : fsLookup fs (parent ++ [name]) with
  | none => rw [hfl] at h; cases h
  | some node =>
    rw [hfl] at h
    cases node with
    | dir =>
      cases h
      exact ⟨fun q => !(parent ++ [name]).isPrefixOf q, rfl,
        by simp [isPrefixOf_self]⟩
    | file data mode mtime uid gid =>
      cases h
      exact ⟨fun q => !(q == parent ++ [name]), rfl, by simp⟩
    | symlink target mtime uid gid =>
      cases h
      exact ⟨fun q => !(q == parent ++ [name]), rfl, by simp⟩

theorem process_whiteout_filter (fs : Fs) (dir : FsPath) (whiteout : Str)
    (fs' : Fs) (h : process_whiteout fs dir whiteout = .ok fs') :
    ∃ pred : FsPath → Bool, fs' = fs.filter fun e => pred e.1 := by
  unfold process_whiteout at h
  by_cases hop : whiteout = whOpaque
  · rw [if_pos hop] at h
    cases h
    exact ⟨fun q => !isStrictUnder dir q, rfl⟩
  · rw [if_neg hop] at h
    cases hre : remove_entry fs dir whiteout with
    | error e => rw [hre] at h; cases h
    | ok pr =>
      rw [hre] at h
      cases h
      obtain ⟨pred, hpred, _⟩ := remove_entry_filter fs dir whiteout pr.1 pr.2
        (by rw [hre])
      exact ⟨pred, hpred⟩

theorem isStrictUnder_self (l : FsPath) : isStrictUnder l l = false := by
  simp [isStrictUnder, isPrefixOf_self]

/-- C2 (amended): a whiteout entry performs no creation beyond opening its
parent directory with create-if-missing (which can create missing parent
directories); it adds no regular file, no symlink and no deferred-metadata
entry, clears the directory-handle cache in full, and removes either the
whole contents of the parent directory (remainder ".wh..opq", the
directory itself kept) or the sibling named by the remainder after
".wh.". -/
theorem C2_whiteout_semantics (entry : TarEntry) (st : UnpackState)
    (parentPath fileName w : Str)
    (hnorm : normalize_path entry.path = .ok (parentPath, fileName))
    (hwh : stripLead whMark fileName = some w) :
    (∀ st', unpackEntry entry st = .ok st' →
        st'.dirsMetadata = st.dirsMetadata
        ∧ st'.dirsCache = []
        ∧ ∀ p n, fsLookup st'.fs p = some n → n ≠ .dir →
            fsLookup st.fs p = some n)
    ∧ (w = whOpaque →
        ∀ fs1, openDirCreate st.fs [] (absComponents parentPath) = .ok fs1 →
          unpackEntry entry st =
            .ok ⟨remove_subtree fs1 (absComponents parentPath), [],
                 st.dirsMetadata⟩
          ∧ fsLookup (remove_subtree fs1 (absComponents parentPath))
              (absComponents parentPath)
            = fsLookup fs1 (absComponents parentPath)
          ∧ ∀ q, isStrictUnder (absComponents parentPath) q = true →
              fsLookup (remove_subtree fs1 (absComponents parentPath)) q = none)
    ∧ (w ≠ whOpaque →
        ∀ fs1 fs2 r,
          openDirCreate st.fs [] (absComponents parentPath) = .ok fs1 →
          remove_entry fs1 (absComponents parentPath) w = .ok (fs2, r) →
          unpackEntry entry st = .ok ⟨fs2, [], st.dirsMetadata⟩
          ∧ fsLookup fs2 (absComponents parentPath ++ [w]) = none) := by
  refine ⟨?_, ?_, ?_⟩
  · intro st' h
    simp only [unpackEntry, hnorm, hwh] at h
    cases hod : openDirCreate st.fs [] (absComponents parentPath) with
    | error e => simp only [hod] at h; cases h
    | ok fs1 =>
      simp only [hod] at h
      cases hpw : process_whiteout fs1 (absComponents parentPath) w with
      | error e => simp only [hpw] at h; cases h
      | ok fs2 =>
        simp only [hpw] at h
        cases h
        refine ⟨rfl, rfl, ?_⟩
        intro p n hln hnd
        obtain ⟨pred, hpred⟩ := process_whiteout_filter fs1 _ w fs2 hpw
        subst hpred
        rw [fsLookup_filter] at hln
        cases hpp : pred p
        · rw [hpp] at hln; cases hln
        · rw [hpp] at hln
          simp only [if_pos rfl] at hln
          rcases openDirCreate_lookup _ _ _ _ hod p n hln with h1 | h2
          · exact h1
          · exact absurd h2 hnd
  · intro hop fs1 hod
    subst hop
    refine ⟨?_, ?_, ?_⟩
    · simp [unpackEntry, hnorm, hwh, hod, process_whiteout]
    · rw [remove_subtree,
        fsLookup_filter fs1 (fun q => !isStrictUnder (absComponents parentPath) q)]
      simp [isStrictUnder_self]
    · intro q hq
      rw [remove_subtree,
        fsLookup_filter fs1 (fun q => !isStrictUnder (absComponents parentPath) q),
        hq]
      simp
  · intro hne fs1 fs2 r hod hre
    constructor
    · simp [unpackEntry, hnorm, hwh, hod, process_whiteout, if_neg hne, hre]
    · obtain ⟨pred, hpred, hp0⟩ :=
        remove_entry_filter fs1 (absComponents parentPath) w fs2 r hre
      subst hpred
      rw [fsLookup_filter, hp0]
      simp

/-- C2 counterexample: in an empty rootfs, the opaque whiteout entry
a/b/.wh..wh..opq creates the directories a and a/b (the parent chain) even
though the claim says a whiteout creates no directory. -/
theorem C2_counterexample :
    unpackEntry
      ⟨['a', '/', 'b', '/', '.', 'w', 'h', '.', '.', 'w', 'h', '.', '.',
        'o', 'p', 'q'], .regular, [], none, 0, 0, 0, 0⟩
      ⟨[], [], []⟩ =
      .ok ⟨[([['a'], ['b']], .dir), ([['a']], .dir)], [], []⟩
    ∧ fsLookup [([['a'], ['b']], FsNode.dir), ([['a']], FsNode.dir)] [['a']]
        = some .dir
    ∧ fsLookup ([] : Fs) [['a']] = none := by
  refine ⟨?_, by decide, rfl⟩
  decide

/-- C2 witness: a plain whiteout a/.wh.x in a rootfs holding a/x removes
a/x, clears the cache and keeps the metadata map. -/
theorem C2_whiteout_semantics_witness :
    unpackEntry
      ⟨['a', '/', '.', 'w', 'h', '.', 'x'], .regular, [], none, 0, 0, 0, 0⟩
      ⟨[([['a']], .dir), ([['a'], ['x']], .file [] 0 0 none none)],
       [[['a']]], [((0, ['m']), ⟨0, 0, none, none⟩)]⟩ =
      .ok ⟨[([['a']], .dir)], [], [((0, ['m']), ⟨0, 0, none, none⟩)]⟩ := by
  have h :=
    ((C2_whiteout_semantics
      ⟨['a', '/', '.', 'w', 'h', '.', 'x'], .regular, [], none, 0, 0, 0, 0⟩
      ⟨[([['a']], .dir), ([['a'], ['x']], .file [] 0 0 none none)],
       [[['a']]], [((0, ['m']), ⟨0, 0, none, none⟩)]⟩
      ['/', 'a'] ['.', 'w', 'h', '.', 'x'] ['x'] rfl rfl).2.2
      (by decide)
      [([['a']], .dir), ([['a'], ['x']], .file [] 0 0 none none)]
      [([['a']], .dir)] .nonDirectory rfl rfl).1
  exact h

/-- The file node unpack_regular creates for a tar entry: the body, the
low 12 mode bits, the header mtime, and the nonzero owner ids. -/
def regularNode (entry : TarEntry) : FsNode :=
  .file entry.data (entry.mode % 4096) entry.mtime (entryOwnerUid entry)
    (entryOwnerGid entry)

/-- C5: for a regular-file entry, a parent-open error is fatal; with the
parent open, a fresh path is created directly and the metadata map is
untouched, while an existing entry (EEXIST on the exclusive create) is
deleted and the create retried successfully, and exactly when the deleted
entry was a directory the deferred-metadata key of its full path is
dropped. -/
theorem C5_regular_create (entry : TarEntry) (st : UnpackState)
    (parentPath fileName : Str)
    (hnorm : normalize_path entry.path = .ok (parentPath, fileName))
    (hwh : stripLead whMark fileName = none)
    (het : entry.etype = .regular) :
    (∀ e, openDirCreate st.fs [] (absComponents parentPath) = .error e →
        unpackEntry entry st = .error e)
    ∧ (∀ fs1, openDirCreate st.fs [] (absComponents parentPath) = .ok fs1 →
        (fsLookup fs1 (absComponents parentPath ++ [fileName]) = none →
          unpackEntry entry st =
            .ok ⟨(absComponents parentPath ++ [fileName], regularNode entry)
                    :: fs1,
                 absComponents parentPath :: st.dirsCache, st.dirsMetadata⟩)
        ∧ ∀ node,
            fsLookup fs1 (absComponents parentPath ++ [fileName]) = some node →
            ∃ fs2 r,
              remove_entry fs1 (absComponents parentPath) fileName =
                .ok (fs2, r)
              ∧ (r = .directory ↔ node = .dir)
              ∧ fsLookup fs2 (absComponents parentPath ++ [fileName]) = none
              ∧ unpackEntry entry st =
                  .ok ⟨(absComponents parentPath ++ [fileName],
                        regularNode entry) :: fs2,
                       absComponents parentPath :: st.dirsCache,
                       if node = .dir then
                         metaRemove st.dirsMetadata
                           (metadataKey (pushPath parentPath fileName))
                       else st.dirsMetadata⟩
              ∧ fsLookup ((absComponents parentPath ++ [fileName],
                    regularNode entry) :: fs2)
                  (absComponents parentPath ++ [fileName]) =
                  some (regularNode entry)) := by
  constructor
  · intro e herr
    simp [unpackEntry, hnorm, hwh, het, unpack_regular, herr]
  · intro fs1 hod
    constructor
    · intro hnone
      simp [unpackEntry, hnorm, hwh, het, unpack_regular, hod, hnone,
        regularNode]
    · intro node hsome
      cases node with
      | dir =>
        refine ⟨fs1.filter fun e =>
            !(absComponents parentPath ++ [fileName]).isPrefixOf e.1,
          .directory, ?_, by simp, ?_, ?_, ?_⟩
        · simp [remove_entry, hsome]
        · rw [fsLookup_filter fs1 (fun q =>
            !(absComponents parentPath ++ [fileName]).isPrefixOf q)]
          simp [isPrefixOf_self]
        · simp [unpackEntry, hnorm, hwh, het, unpack_regular, hod, hsome,
            remove_entry, regularNode]
        · rw [fsLookup_cons]
          simp
      | file data mode mtime uid gid =>
        refine ⟨fs1.filter fun e =>
            !(e.1 == absComponents parentPath ++ [fileName]),
          .nonDirectory, ?_, by simp, ?_, ?_, ?_⟩
        · simp [remove_entry, hsome]
        · rw [fsLookup_filter fs1 (fun q =>
            !(q == absComponents parentPath ++ [fileName]))]
          simp
        · simp [unpackEntry, hnorm, hwh, het, unpack_regular, hod, hsome,
            remove_entry, regularNode]
        · rw [fsLookup_cons]
          simp
      | symlink target mtime uid gid =>
        refine ⟨fs1.filter fun e =>
            !(e.1 == absComponents parentPath ++ [fileName]),
          .nonDirectory, ?_, by simp, ?_, ?_, ?_⟩
        · simp [remove_entry, hsome]
        · rw [fsLookup_filter fs1 (fun q =>
            !(q == absComponents parentPath ++ [fileName]))]
          simp
        · simp [unpackEntry, hnorm, hwh, het, unpack_regular, hod, hsome,
            remove_entry, regularNode]
        · rw [fsLookup_cons]
          simp

/-- C5 witness: extracting a regular file a/f over an existing directory
a/f deletes the directory, drops its deferred-metadata key, and creates
the file. -/
theorem C5_regular_create_witness :
    unpackEntry ⟨['a', '/', 'f'], .regular, [1], none, 420, 9, 0, 0⟩
      ⟨[([['a']], .dir), ([['a'], ['f']], .dir)], [],
       [(metadataKey ['/', 'a', '/', 'f'], ⟨448, 5, none, none⟩)]⟩ =
      .ok ⟨[([['a'], ['f']],
              regularNode ⟨['a', '/', 'f'], .regular, [1], none, 420, 9, 0, 0⟩),
            ([['a']], .dir)],
           [[['a']]], []⟩ := by
  have h :=
    (((C5_regular_create ⟨['a', '/', 'f'], .regular, [1], none, 420, 9, 0, 0⟩
      ⟨[([['a']], .dir), ([['a'], ['f']], .dir)], [],
       [(metadataKey ['/', 'a', '/', 'f'], ⟨448, 5, none, none⟩)]⟩
      ['/', 'a'] ['f'] rfl rfl rfl).2
      [([['a']], .dir), ([['a'], ['f']], .dir)] rfl).2
      .dir rfl)
  obtain ⟨fs2, r, hre, _, _, hres, _⟩ := h
  have habs : absComponents ['/', 'a'] = [['a']] := by decide
  rw [habs] at hre hres
  have hconc : remove_entry [([['a']], FsNode.dir), ([['a'], ['f']], FsNode.dir)]
      [['a']] ['f'] = .ok ([([['a']], FsNode.dir)], .directory) := by decide
  rw [hconc] at hre
  cases hre
  rw [hres]
  decide

end OciUnpack
